import Mathlib

/-!
Verification of the typeslice crate: the runtime `List` bridge (`src/src/lib.rs`),
the per-kind `TypeSlice` chain types, the `slice_eq` const equality check, the
UTF-8 scalar decoder (`src/src/utf8.rs`), and the byte concatenation tree
described in the specification.

Machine integers (`u8`, `u32`, `usize`) are embedded as `Nat`; every bitwise
operation used by the decoder stays below `2^32`, so plain `Nat` arithmetic
agrees with the `u32` arithmetic of the source. Unicode scalar values are
embedded as `Nat` code points (so `'h'` is `0x68`).
-/

namespace Typeslice

/-- `usize::checked_sub`, specialised to `Nat`: `some (a - b)` when `b ≤ a`,
`none` on underflow. -/
def checked_sub (a b : Nat) : Option Nat :=
  if b ≤ a then some (a - b) else none

/-! ## The UTF-8 scalar decoder (`src/src/utf8.rs`) -/

/-- The result type `Pop` of `utf8::pop`.  `Ok` carries the decoded Unicode
scalar value as a `Nat` code point. -/
inductive Pop where
  | Empty
  | Truncated
  | Invalid
  | Ok (c : Nat)
deriving DecidableEq, Repr

/-- Mask of the value bits of a continuation byte (`CONT_MASK` in the source). -/
def CONT_MASK : Nat := 0x3F

/-- `utf8_first_byte` from the source: initial accumulator from the lead byte. -/
def utf8_first_byte (byte width : Nat) : Nat :=
  byte &&& (0x7F >>> width)

/-- `utf8_acc_cont_byte` from the source: fold continuation byte into `ch`. -/
def utf8_acc_cont_byte (ch byte : Nat) : Nat :=
  (ch <<< 6) ||| (byte &&& CONT_MASK)

/-- `char::from_u32` on code points as `Nat`: `none` exactly on the surrogate
range `0xD800..=0xDFFF` and on values above `0x10FFFF`. -/
def char_from_u32 (n : Nat) : Option Nat :=
  if 0xD800 ≤ n ∧ n ≤ 0xDFFF then none
  else if 0x10FFFF < n then none
  else some n

/-- `utf8::pop`, with the mutated local slice `bytes` made explicit: the second
component is the value of `bytes` at the point the function returns.  Each
`match` on the list is one `next_in_slice!` of the source. -/
def popState (bytes : List Nat) : Pop × List Nat :=
  match bytes with
  | [] => (Pop.Empty, [])
  | x :: bytes =>
    if x < 128 then
      (match char_from_u32 x with
        | some c => Pop.Ok c
        | none => Pop.Invalid, bytes)
    else
      let init := utf8_first_byte x 2
      match bytes with
      | [] => (Pop.Truncated, [])
      | y :: bytes =>
        let ch := utf8_acc_cont_byte init y
        if 0xE0 ≤ x then
          match bytes with
          | [] => (Pop.Truncated, [])
          | z :: bytes =>
            let y_z := utf8_acc_cont_byte (y &&& CONT_MASK) z
            let ch2 := (init <<< 12) ||| y_z
            if 0xF0 ≤ x then
              match bytes with
              | [] => (Pop.Truncated, [])
              | w :: bytes =>
                let ch3 := ((init &&& 7) <<< 18) ||| utf8_acc_cont_byte y_z w
                (match char_from_u32 ch3 with
                  | some c => Pop.Ok c
                  | none => Pop.Invalid, bytes)
            else
              (match char_from_u32 ch2 with
                | some c => Pop.Ok c
                | none => Pop.Invalid, bytes)
        else
          (match char_from_u32 ch with
            | some c => Pop.Ok c
            | none => Pop.Invalid, bytes)

/-- `utf8::pop` as written in the source: only the `Pop` value is returned. -/
def pop (bytes : List Nat) : Pop :=
  (popState bytes).1

/-! ## The runtime `List` bridge (`src/src/lib.rs`)

The source type is `enum List<'a, T> { Item { head: &'a T, rest: &'a Self },
Empty }`; borrows of immutable data are embedded as plain values.  The name
`RList` avoids shadowing Lean's own `List`, which stands in for Rust slices. -/

inductive RList (T : Type) where
  | item (head : T) (rest : RList T)
  | empty
deriving DecidableEq, Repr

variable {T : Type}

/-- `List::len`: `1 + next.len()` on `Item`, `0` on `Empty`. -/
def RList.len : RList T → Nat
  | .item _ next => 1 + next.len
  | .empty => 0

/-- `List::get`: `None` on `Empty`; the head at index `0`; otherwise recurse on
`rest` with `ix.checked_sub(1)` (whose `None` arm is unreachable for `ix ≠ 0`). -/
def RList.get : RList T → Nat → Option T
  | .empty, _ => none
  | .item head _, 0 => some head
  | .item _ next, ix =>
    match checked_sub ix 1 with
    | some nix => next.get nix
    | none => none

/-- `List::is_empty`. -/
def RList.is_empty : RList T → Bool
  | .empty => true
  | .item _ _ => false

/-- `List::into_option`: `None` on `Empty`, else the head and its successor. -/
def RList.into_option : RList T → Option (T × RList T)
  | .item head next => some (head, next)
  | .empty => none

/-- The iterator `Iter` over a list (`struct Iter { inner: List }`). -/
structure Iter (T : Type) where
  inner : RList T
deriving DecidableEq, Repr

/-- `List::iter`: wrap a copy of the list. -/
def RList.iter (l : RList T) : Iter T :=
  ⟨l⟩

/-- `Iterator::next` for `Iter`, via `into_option`. -/
def Iter.next (it : Iter T) : Option (T × Iter T) :=
  match it.inner.into_option with
  | some (t, n) => some (t, ⟨n⟩)
  | none => none

/-- Drive `Iter.next` at most `fuel` times, collecting the yielded elements in
order.  `fuel` only bounds the number of steps; the iterator itself signals
exhaustion through `next = none`. -/
def Iter.drain : Nat → Iter T → List T
  | 0, _ => []
  | fuel + 1, it =>
    match it.next with
    | none => []
    | some (t, it2) => t :: Iter.drain fuel it2

/-- `List::index` (the `core::ops::Index` impl): the element from `get` on
success; the `panic!` with its exact format string is embedded as
`Except.error`. -/
def RList.index (l : RList T) (i : Nat) : Except String T :=
  match l.get i with
  | some it => Except.ok it
  | none =>
    Except.error ("index out of bounds: the len is " ++ toString l.len
      ++ " but the index is " ++ toString i)

/-- The body of the `slice_eq` loop: `ix` starts at `slice.len()` and the
`while let Some(nix) = ix.checked_sub(1)` header is the match on `ix`
(`ix.checked_sub(1)` is `none` iff `ix = 0`, else `some nix` with
`ix = nix + 1`).  The two fallible accesses of the body are made explicit:
`none` stands for the `unreachable!()` arm taken when `self.get(nix)` is
`None`, and for the panic of the slice index `slice[nix]`. -/
def sliceEqLoop [DecidableEq T] (l : RList T) (s : List T) : Nat → Option Bool
  | 0 => some true
  | nix + 1 =>
    match l.get nix with
    | none => none
    | some ours =>
      match s[nix]? with
      | none => none
      | some theirs =>
        if ours ≠ theirs then some false
        else sliceEqLoop l s nix

/-- `List::slice_eq`: `false` immediately on length mismatch, else the
index-driven downward comparison loop.  `some b` is a normal return of `b`;
`none` marks the unreachable/panicking paths of the body. -/
def slice_eq [DecidableEq T] (l : RList T) (s : List T) : Option Bool :=
  if l.len ≠ s.length then some false
  else sliceEqLoop l s s.length

/-! ## The type-level chains (`TypeSlice` impls in `src/src/lib.rs`)

Every primitive kind gets the same pair of impls (`$name<ELEM, Rest>` /
`$nil`), so one inductive over an arbitrary element type embeds them all: a
chain value `TS.cons e r` stands for the type `$name<e, r>` and `TS.nil` for
`$nil`. -/

inductive TS (T : Type) where
  | cons (elem : T) (rest : TS T)
  | nil
deriving DecidableEq, Repr

/-- The associated constant `LIST`: `Cons` projects to `List::Item` with the
element as head, `Nil` to `List::Empty`. -/
def TS.LIST : TS T → RList T
  | .cons e r => .item e (TS.LIST r)
  | .nil => .empty

/-- The associated constant `LEN`: `1 + Rest::LEN` on `Cons`, `0` on `Nil`. -/
def TS.LEN : TS T → Nat
  | .cons _ r => 1 + TS.LEN r
  | .nil => 0

/-- The elements of a chain in construction order, first-constructed first
(the first literal of `u8![a, b, c]` is the outermost `Cons`). -/
def TS.elems : TS T → List T
  | .cons e r => e :: TS.elems r
  | .nil => []

/-- The elements of a runtime list in head-to-rest order (the order `get`
indexes and `iter` traverses); the abstraction the claims are stated in. -/
def RList.elems : RList T → List T
  | .item h r => h :: RList.elems r
  | .empty => []

/-! ## The byte concatenation tree -/

/-- Modelled from the spec: the Byte Concatenation Tree component (spec §3,
§4.3) is absent from `src/`; only the specification describes it.  A leaf is a
single fixed byte (length 1), the `Empty` leaf contributes no bytes (length 0),
and a concatenation node joins a Left and a Right sub-tree. -/
inductive ConcatTree where
  | byte (b : Nat)
  | emptyLeaf
  | concat (l r : ConcatTree)
deriving DecidableEq, Repr

/-- Modelled from the spec: `LEN`, the static total length — 1 for a byte
leaf, 0 for the `Empty` leaf, `Left.length + Right.length` for a node. -/
def ConcatTree.LEN : ConcatTree → Nat
  | .byte _ => 1
  | .emptyLeaf => 0
  | .concat l r => l.LEN + r.LEN

/-- Modelled from the spec: `bytes()`, the lazy left-to-right sequence of byte
values of the tree. -/
def ConcatTree.bytes : ConcatTree → List Nat
  | .byte b => [b]
  | .emptyLeaf => []
  | .concat l r => l.bytes ++ r.bytes

/-- Modelled from the spec: `to_owned_bytes()` materialises the flattened
bytes into an owned buffer (here: by draining `bytes()`, one of the two
implementations the spec allows). -/
def ConcatTree.to_owned_bytes (t : ConcatTree) : List Nat :=
  t.bytes

/-! ## Helper lemmas -/

theorem RList.elems_length (l : RList T) : l.elems.length = l.len := by
  induction l with
  | item h r ih => simp [RList.elems, RList.len, ih, Nat.add_comm]
  | empty => simp [RList.elems, RList.len]

theorem RList.get_eq_elems (l : RList T) (i : Nat) : l.get i = l.elems[i]? := by
  induction l generalizing i with
  | empty => simp [RList.get, RList.elems]
  | item h r ih =>
    cases i with
    | zero => simp [RList.get, RList.elems]
    | succ n => simp [RList.get, RList.elems, checked_sub, ih]

theorem RList.get_lt (l : RList T) (i : Nat) (h : i < l.len) :
    ∃ v, l.get i = some v := by
  rw [RList.get_eq_elems]
  have hi : i < l.elems.length := by rw [RList.elems_length]; exact h
  exact ⟨l.elems.get ⟨i, hi⟩, by simp [List.getElem?_eq_getElem hi]⟩

theorem RList.get_le (l : RList T) (i : Nat) (h : l.len ≤ i) : l.get i = none := by
  rw [RList.get_eq_elems]
  apply List.getElem?_eq_none
  rw [RList.elems_length]
  exact h

theorem TS.elems_LIST (s : TS T) : (TS.LIST s).elems = s.elems := by
  induction s with
  | cons e r ih => simp [TS.LIST, TS.elems, RList.elems, ih]
  | nil => simp [TS.LIST, TS.elems, RList.elems]

theorem TS.elems_len (s : TS T) : s.elems.length = s.LEN := by
  induction s with
  | cons e r ih => simp [TS.elems, TS.LEN, ih, Nat.add_comm]
  | nil => simp [TS.elems, TS.LEN]

theorem Iter.drain_of_le (l : RList T) :
    ∀ fuel, l.len ≤ fuel → Iter.drain fuel ⟨l⟩ = l.elems := by
  induction l with
  | empty =>
    intro fuel _
    cases fuel <;> simp [Iter.drain, Iter.next, RList.into_option, RList.elems]
  | item hd r ih =>
    intro fuel h
    cases fuel with
    | zero => exfalso; simp [RList.len] at h
    | succ f =>
      simp only [Iter.drain, Iter.next, RList.into_option, RList.elems]
      exact congrArg (hd :: ·) (ih f (by simp [RList.len] at h; omega))

theorem sliceEqLoop_spec [DecidableEq T] (l : RList T) (s : List T)
    (hlen : l.len = s.length) :
    ∀ ix, ix ≤ s.length →
      sliceEqLoop l s ix = some (decide (∀ i, i < ix → l.get i = s[i]?)) := by
  intro ix
  induction ix with
  | zero => intro _; simp [sliceEqLoop]
  | succ n ih =>
    intro hn1
    have hn : n < s.length := by omega
    obtain ⟨ours, hours⟩ := RList.get_lt l n (by rw [hlen]; exact hn)
    have htheirs : s[n]? = some s[n] := List.getElem?_eq_getElem hn
    simp only [sliceEqLoop, hours, htheirs]
    by_cases heq : ours = s[n]
    · rw [if_neg (by simp [heq]), ih (by omega)]
      congr 1
      apply decide_eq_decide.mpr
      constructor
      · intro hall i hi
        rcases Nat.lt_succ_iff_lt_or_eq.mp hi with hlt | hie
        · exact hall i hlt
        · subst hie; rw [hours, htheirs, heq]
      · intro hall i hi; exact hall i (by omega)
    · rw [if_pos (by simpa using heq)]
      have hno : ¬ (∀ i, i < n + 1 → l.get i = s[i]?) := by
        intro hall
        have := hall n (by omega)
        rw [hours, htheirs] at this
        exact heq (Option.some.inj this)
      simp [hno]

theorem popState_ok_consumed (bs : List Nat) (c : Nat)
    (h : (popState bs).1 = Pop.Ok c) :
    ∃ k, 1 ≤ k ∧ k ≤ 4 ∧ k ≤ bs.length ∧ (popState bs).2 = bs.drop k := by
  match bs with
  | [] => simp [popState] at h
  | [x] =>
    by_cases h1 : x < 128
    · exact ⟨1, by omega, by omega, by simp, by simp [popState, h1]⟩
    · simp [popState, h1] at h
  | [x, y] =>
    by_cases h1 : x < 128
    · exact ⟨1, by omega, by omega, by simp, by simp [popState, h1]⟩
    · by_cases h2 : 0xE0 ≤ x
      · simp [popState, h1, h2] at h
      · exact ⟨2, by omega, by omega, by simp, by simp [popState, h1, h2]⟩
  | [x, y, z] =>
    by_cases h1 : x < 128
    · exact ⟨1, by omega, by omega, by simp, by simp [popState, h1]⟩
    · by_cases h2 : 0xE0 ≤ x
      · by_cases h3 : 0xF0 ≤ x
        · simp [popState, h1, h2, h3] at h
        · exact ⟨3, by omega, by omega, by simp,
            by simp [popState, h1, h2, h3]⟩
      · exact ⟨2, by omega, by omega, by simp, by simp [popState, h1, h2]⟩
  | x :: y :: z :: w :: rest =>
    by_cases h1 : x < 128
    · exact ⟨1, by omega, by omega, by simp only [List.length_cons]; omega,
        by simp [popState, h1]⟩
    · by_cases h2 : 0xE0 ≤ x
      · by_cases h3 : 0xF0 ≤ x
        · exact ⟨4, by omega, by omega, by simp only [List.length_cons]; omega,
            by simp [popState, h1, h2, h3]⟩
        · exact ⟨3, by omega, by omega, by simp only [List.length_cons]; omega,
            by simp [popState, h1, h2, h3]⟩
      · exact ⟨2, by omega, by omega, by simp only [List.length_cons]; omega,
          by simp [popState, h1, h2]⟩

/-! ## Claim theorems -/

/-- C1: `slice_eq` returns `true` iff the list and the slice have equal length
and the element `get i` equals `s[i]` at every index `i` below the length; on
a length mismatch it returns `false` (by definition before the comparison
loop runs). -/
theorem slice_eq_spec {T : Type} [DecidableEq T] (l : RList T) (s : List T) :
    (slice_eq l s = some true ↔
      (l.len = s.length ∧ ∀ i, i < l.len → l.get i = s[i]?))
    ∧ (l.len ≠ s.length → slice_eq l s = some false) := by
  by_cases h : l.len = s.length
  · refine ⟨?_, fun hne => absurd h hne⟩
    rw [slice_eq, if_neg (fun hne => hne h), sliceEqLoop_spec l s h s.length le_rfl]
    simp only [Option.some.injEq, decide_eq_true_eq]
    constructor
    · intro hall
      exact ⟨h, fun i hi => hall i (by omega)⟩
    · intro hall i hi
      exact hall.2 i (by omega)
  · refine ⟨?_, fun _ => by rw [slice_eq, if_pos h]⟩
    rw [slice_eq, if_pos h]
    constructor
    · intro hfalse
      exact absurd (Option.some.inj hfalse) (by simp)
    · intro hall
      exact absurd hall.1 h

/-- Witness for C1 at concrete inputs: a two-element list compares equal to
`[1, 2]`, and a one-element list compares unequal to the empty slice. -/
theorem slice_eq_spec_witness :
    slice_eq (RList.item 1 (RList.item 2 RList.empty)) [1, 2] = some true
    ∧ slice_eq (RList.item 1 RList.empty) ([] : List Nat) = some false := by
  constructor
  · exact (slice_eq_spec (RList.item 1 (RList.item 2 RList.empty)) [1, 2]).1.mpr
      ⟨by decide, by decide⟩
  · exact (slice_eq_spec (RList.item 1 RList.empty) ([] : List Nat)).2 (by decide)

/-- C2: for every chain `S`, the projected list `S.LIST` has length `S.LEN`,
and iterating it (driving `Iter.next` with any sufficient step bound) yields
exactly the `S.LEN` chain elements in construction order, first-constructed
element first. -/
theorem typeslice_list_spec {T : Type} (S : TS T) :
    (TS.LIST S).len = S.LEN ∧ (TS.elems S).length = S.LEN
    ∧ ∀ fuel, S.LEN ≤ fuel →
        Iter.drain fuel (RList.iter (TS.LIST S)) = TS.elems S := by
  have h1 : (TS.LIST S).len = S.LEN := by
    rw [← RList.elems_length, TS.elems_LIST, TS.elems_len]
  refine ⟨h1, TS.elems_len S, fun fuel hf => ?_⟩
  rw [RList.iter, Iter.drain_of_le (TS.LIST S) fuel (by rw [h1]; exact hf),
    TS.elems_LIST]

/-- Witness for C2 at the concrete chain `cons 7 (cons 8 nil)` with step
bound 2. -/
theorem typeslice_list_spec_witness :
    Iter.drain 2 (RList.iter (TS.LIST (TS.cons 7 (TS.cons 8 TS.nil))))
      = TS.elems (TS.cons 7 (TS.cons 8 TS.nil)) :=
  (typeslice_list_spec (TS.cons 7 (TS.cons 8 TS.nil))).2.2 2 (by decide)

/-- C3: `get i` returns `some` of the `i`-th element in head-to-rest order
when `i < len`, and `none` when `i ≥ len` (in particular always `none` on
`Empty`, whose length is `0`). -/
theorem get_spec {T : Type} (l : RList T) (i : Nat) :
    (i < l.len → ∃ v, l.get i = some v ∧ l.elems[i]? = some v)
    ∧ (l.len ≤ i → l.get i = none) := by
  constructor
  · intro h
    obtain ⟨v, hv⟩ := RList.get_lt l i h
    exact ⟨v, hv, by rw [← RList.get_eq_elems]; exact hv⟩
  · intro h
    exact RList.get_le l i h

/-- Witness for C3 at a concrete three-element list: index 1 is in bounds,
index 5 is out of bounds. -/
theorem get_spec_witness :
    (∃ v, (RList.item 10 (RList.item 20 (RList.item 30 RList.empty))).get 1 = some v
      ∧ (RList.item 10 (RList.item 20 (RList.item 30 RList.empty))).elems[1]? = some v)
    ∧ (RList.item 10 (RList.item 20 (RList.item 30 RList.empty))).get 5 = none := by
  constructor
  · exact (get_spec (RList.item 10 (RList.item 20 (RList.item 30 RList.empty))) 1).1
      (by decide)
  · exact (get_spec (RList.item 10 (RList.item 20 (RList.item 30 RList.empty))) 5).2
      (by decide)

/-- C4 counterexample: the claim says decoding `[0x80]` yields `Invalid`, but
`pop [0x80]` is `Truncated` (and `Truncated ≠ Invalid`): the decoder treats
the lone continuation byte as a multi-byte lead byte and runs out of input. -/
theorem pop_lone_cont_not_invalid :
    pop [0x80] = Pop.Truncated ∧ Pop.Truncated ≠ Pop.Invalid := by
  decide

/-- C4 (amended): decoding the one-byte input `[0x80]` (a continuation byte in
the lead position) yields the `Truncated` outcome. -/
theorem pop_lone_cont_truncated : pop [0x80] = Pop.Truncated := by
  decide

/-- C5 counterexample: the decoder's result does not report how many bytes
were consumed — no function of the returned `Pop` value recovers the consumed
count, because `[0x00]` and the overlong `[0xC0, 0x80]` both return
`Ok U+0000` while consuming 1 and 2 bytes respectively. -/
theorem pop_count_not_in_result :
    ¬ ∃ f : Pop → Nat, ∀ (bs : List Nat) (c : Nat),
        (popState bs).1 = Pop.Ok c →
          bs.length - (popState bs).2.length = f (popState bs).1 := by
  rintro ⟨f, hf⟩
  have e1 : popState [0x00] = (Pop.Ok 0, []) := by decide
  have e2 : popState [0xC0, 0x80] = (Pop.Ok 0, []) := by decide
  have h1 := hf [0x00] 0 (by rw [e1])
  have h2 := hf [0xC0, 0x80] 0 (by rw [e2])
  rw [e1] at h1
  rw [e2] at h2
  have h1' : (1 : Nat) = f (Pop.Ok 0) := by simpa using h1
  have h2' : (2 : Nat) = f (Pop.Ok 0) := by simpa using h2
  exact absurd (h1'.trans h2'.symm) (by decide)

/-- C5 (amended): on every input on which the decoder succeeds it consumes
between 1 and 4 bytes from the front of the input (the final cursor is the
input with 1–4 leading bytes dropped); decoding `[0x68]` yields `Ok 'h'`
consuming exactly 1 byte.  The consumed count is not carried in the returned
`Pop` value itself. -/
theorem pop_consumed_spec :
    (∀ (bs : List Nat) (c : Nat), (popState bs).1 = Pop.Ok c →
      ∃ k, 1 ≤ k ∧ k ≤ 4 ∧ k ≤ bs.length ∧ (popState bs).2 = bs.drop k)
    ∧ pop [0x68] = Pop.Ok 0x68 ∧ (popState [0x68]).2 = List.drop 1 [0x68] :=
  ⟨popState_ok_consumed, by decide, by decide⟩

/-- Witness for C5 at the concrete input `[0x68]`. -/
theorem pop_consumed_spec_witness :
    ∃ k, 1 ≤ k ∧ k ≤ 4 ∧ k ≤ ([0x68] : List Nat).length
      ∧ (popState [0x68]).2 = ([0x68] : List Nat).drop k :=
  pop_consumed_spec.1 [0x68] 0x68 (by decide)

/-- C6: indexing returns the same element as `get` when the index is in
bounds, and when it is out of bounds it fails fatally with a message that
reports both the actual length and the requested index. -/
theorem index_spec {T : Type} (l : RList T) (i : Nat) :
    (i < l.len → ∃ v, l.index i = Except.ok v ∧ l.get i = some v)
    ∧ (l.len ≤ i → l.index i = Except.error ("index out of bounds: the len is "
        ++ toString l.len ++ " but the index is " ++ toString i)) := by
  constructor
  · intro h
    obtain ⟨v, hv⟩ := RList.get_lt l i h
    exact ⟨v, by simp [RList.index, hv], hv⟩
  · intro h
    simp [RList.index, RList.get_le l i h]

/-- Witness for C6: requesting index 5 on a length-3 list fails reporting
length 3 and index 5, and index 1 on the same list succeeds with the `get`
element. -/
theorem index_spec_witness :
    (RList.item 10 (RList.item 20 (RList.item 30 RList.empty))).index 5
      = Except.error "index out of bounds: the len is 3 but the index is 5"
    ∧ ∃ v, (RList.item 10 (RList.item 20 (RList.item 30 RList.empty))).index 1
        = Except.ok v
      ∧ (RList.item 10 (RList.item 20 (RList.item 30 RList.empty))).get 1 = some v := by
  constructor
  · have h := (index_spec (RList.item 10 (RList.item 20 (RList.item 30 RList.empty))) 5).2
      (by decide)
    exact h.trans (congrArg Except.error (by decide))
  · exact (index_spec (RList.item 10 (RList.item 20 (RList.item 30 RList.empty))) 1).1
      (by decide)

/-- C7: the decoder returns `Empty` on the empty input, `Ok 'h'` on `[0x68]`,
and `Truncated` on the lone lead byte `[0xC2]`; the three outcome kinds are
distinct ordinary values of the `Pop` type, not exceptions. -/
theorem pop_outcome_examples :
    pop [] = Pop.Empty ∧ pop [0x68] = Pop.Ok 0x68 ∧ pop [0xC2] = Pop.Truncated
    ∧ Pop.Empty ≠ Pop.Truncated ∧ Pop.Empty ≠ Pop.Ok 0x68
    ∧ Pop.Truncated ≠ Pop.Ok 0x68 := by
  decide

/-- C8: `slice_eq` always returns a boolean: the `unreachable!()` arm (and the
slice-indexing panic), both embedded as `none`, are never reached, for any
list and any slice. -/
theorem slice_eq_total {T : Type} [DecidableEq T] (l : RList T) (s : List T) :
    (slice_eq l s).isSome = true := by
  by_cases h : l.len = s.length
  · rw [slice_eq, if_neg (fun hne => hne h),
      sliceEqLoop_spec l s h s.length le_rfl]
    rfl
  · rw [slice_eq, if_pos h]
    rfl

/-- C9: every concatenation tree flattens to exactly `LEN` bytes, the tree of
single bytes `A, B, C` flattens to `[A, B, C]` under either grouping, and
regrouping a concatenation node never changes the flattened output. -/
theorem concat_tree_spec :
    (∀ t : ConcatTree, t.to_owned_bytes.length = t.LEN)
    ∧ (∀ a b c : Nat,
        (ConcatTree.concat (ConcatTree.concat (ConcatTree.byte a)
          (ConcatTree.byte b)) (ConcatTree.byte c)).to_owned_bytes = [a, b, c]
      ∧ (ConcatTree.concat (ConcatTree.byte a) (ConcatTree.concat
          (ConcatTree.byte b) (ConcatTree.byte c))).to_owned_bytes = [a, b, c])
    ∧ (∀ t u v : ConcatTree,
        (ConcatTree.concat (ConcatTree.concat t u) v).to_owned_bytes
          = (ConcatTree.concat t (ConcatTree.concat u v)).to_owned_bytes) := by
  refine ⟨?_, ?_, ?_⟩
  · intro t
    induction t with
    | byte b => simp [ConcatTree.to_owned_bytes, ConcatTree.bytes, ConcatTree.LEN]
    | emptyLeaf => simp [ConcatTree.to_owned_bytes, ConcatTree.bytes, ConcatTree.LEN]
    | concat l r ihl ihr =>
      simp [ConcatTree.to_owned_bytes, ConcatTree.bytes, ConcatTree.LEN] at *
      omega
  · intro a b c
    exact ⟨rfl, rfl⟩
  · intro t u v
    simp [ConcatTree.to_owned_bytes, ConcatTree.bytes, List.append_assoc]

/-- C10: the decoder accepts overlong encodings: the overlong two-byte input
`[0xC0, 0x80]` decodes to `Ok U+0000` (not `Invalid`), no minimality check
being performed. -/
theorem pop_overlong_accepted :
    pop [0xC0, 0x80] = Pop.Ok 0 ∧ Pop.Ok 0 ≠ Pop.Invalid := by
  decide

end Typeslice
